import Mathlib

/-!
Verification of the generic repository core (repository.py) against its
natural-language specification.

Shallow embedding conventions:
* A database value is `Option Nat` (`none` models SQL NULL / Python None).
* A row or an ORM entity is an association list from column names to values;
  `Row.get` models `getattr` (an absent attribute reads as `none`, matching an
  unset column on a model instance) and `Row.set` models `setattr`.
* A table is a `List Row`; an `AsyncSession.execute` of a statement becomes a
  pure transformation of that list.
* Fallible operations return `Except String`, a raised `ValueError` becoming
  `.error msg`.
* Entity-type metadata (`sa_inspect(self.model)`) is passed explicitly: the
  primary-key column name `pkName` and the number of primary-key columns
  `numPkCols` (the code only compares the latter with 1).
-/

namespace Repo

/-- Association-list lookup for attributes: the first binding wins, and an
absent key reads as `none` (an unset attribute on a model instance). -/
def lookupAttr (c : String) : List (String × Option Nat) → Option Nat
  | [] => none
  | (k, v) :: rest => if k = c then v else lookupAttr c rest

/-- A row of the store, or equally an ORM model instance handed to the
repository: column name to value. -/
structure Row where
  attrs : List (String × Option Nat)
deriving DecidableEq

/-- Models `getattr(r, c, None)`. -/
def Row.get (r : Row) (c : String) : Option Nat :=
  lookupAttr c r.attrs

/-- Models `setattr(r, c, v)`: the new binding shadows any older one. -/
def Row.set (r : Row) (c : String) (v : Option Nat) : Row :=
  ⟨(c, v) :: r.attrs⟩

/-- Duplicate removal preserving the first occurrence, the embedding of
`seen = set(); ids = [x for x in ids if not (x in seen or seen.add(x))]`
(repository.py lines 87-89); `seen` is the accumulated membership set. -/
def dedupeAux [DecidableEq α] (seen : List α) : List α → List α
  | [] => []
  | x :: xs => if x ∈ seen then dedupeAux seen xs else x :: dedupeAux (x :: seen) xs

/-- The dedupe pass of `get_many_by_ids` (and the `set(...)` conversions of the
field arguments, which also keep only one copy of each name). -/
def dedupeList [DecidableEq α] (ids : List α) : List α :=
  dedupeAux [] ids

/-- Chunking: `ids[i : i + chunk_size]` for `i in range(0, len(ids), chunk_size)`
(repository.py lines 96-97 and 263-264), written with a fuel argument so that
the definition is structurally recursive; `chunksOf` instantiates the fuel with
the list length, which suffices whenever `c ≥ 1` (the loop is only reachable
with a positive step). -/
def chunksOfAux (c : Nat) : Nat → List α → List (List α)
  | _, [] => []
  | 0, _ :: _ => []
  | fuel + 1, x :: xs => ((x :: xs).take c) :: chunksOfAux c fuel ((x :: xs).drop c)

/-- The chunks traversed by a batch operation. -/
def chunksOf (c : Nat) (l : List α) : List (List α) :=
  chunksOfAux c l.length l

/-- The per-chunk query `select(self.model).where(pk_col.in_(chunk))`
(repository.py line 98): the store returns, in store order, the rows whose
primary-key column equals one of the chunk values (a NULL key matches nothing,
as in SQL). -/
def selectChunk (store : List Row) (pkName : String) (chunk : List Nat) : List Row :=
  store.filter (fun r => chunk.any (fun i => decide (r.get pkName = some i)))

/-- Sort key of `ORDER BY FIELD(pk, *chunk)` (repository.py line 101): the
1-based position of the key in the chunk, 0 when absent. -/
def fieldKey (pkName : String) (chunk : List Nat) (r : Row) : Nat :=
  match r.get pkName with
  | none => 0
  | some v =>
    match chunk.findIdx? (fun i => decide (i = v)) with
    | some idx => idx + 1
    | none => 0

/-- Stable insertion used by `sortByKey`. -/
def insertByKey (k : Row → Nat) (r : Row) : List Row → List Row
  | [] => [r]
  | x :: xs => if k r ≤ k x then r :: x :: xs else x :: insertByKey k r xs

/-- Stable sort realising the server-side `ORDER BY FIELD` of the MySQL-only
branch. -/
def sortByKey (k : Row → Nat) : List Row → List Row
  | [] => []
  | x :: xs => insertByKey k x (sortByKey k xs)

/-- The dictionary rebuild of the application-side ordering path: the embedding
of `by_id = {getattr(r, pk_col.key): r for r in rows}` followed by `by_id[i]`
(repository.py lines 106-107). A Python dict comprehension lets a later row
overwrite an earlier one with the same key, hence the last matching row wins. -/
def lastWithPk (pkName : String) (rows : List Row) (i : Nat) : Option Row :=
  rows.reverse.find? (fun r => decide (r.get pkName = some i))

def compositeKeyMsgGet : String :=
  "get_many_by_ids(): composite primary key is not supported"

/-- The embedding of `get_many_by_ids` (repository.py lines 63-108). `store` is
the table contents, `pkName`/`numPkCols` the inspected primary-key metadata and
`dialectMysql` tells whether the bound dialect is named mysql. -/
def get_many_by_ids (store : List Row) (pkName : String) (numPkCols : Nat)
    (ids : List Nat) (keepOrder : Bool) (chunkSize : Nat) (dedupe : Bool)
    (dialectMysql : Bool) : Except String (List Row) :=
  if ids = [] then .ok []
  else if numPkCols ≠ 1 then .error compositeKeyMsgGet
  else
    let ids2 := if dedupe then dedupeList ids else ids
    let rows := (chunksOf chunkSize ids2).foldl
      (fun acc chunk =>
        let sel := selectChunk store pkName chunk
        let sel := if keepOrder && dialectMysql
          then sortByKey (fieldKey pkName chunk) sel else sel
        acc ++ sel) []
    if keepOrder && !dialectMysql then
      .ok (ids2.filterMap (fun i => lastWithPk pkName rows i))
    else .ok rows

def exR2 : Row := ⟨[("id", some 2), ("title", some 20)]⟩

def exR5 : Row := ⟨[("id", some 5), ("title", some 50)]⟩

def exR9 : Row := ⟨[("id", some 9), ("title", some 90)]⟩

def exStore1 : List Row := [exR2, exR5, exR9]

def compositeKeyMsgBulk : String :=
  "bulk_update_entities(): composite primary key is not supported"

def emptyFieldsMsg : String :=
  "bulk_update_entities(): fields must not be empty"

def missingPkBulkMsg : String :=
  "bulk_update_entities(): all entities must have primary key set"

/-- The `target_fields = set(fields); target_fields.discard(pk_name)` step
(repository.py lines 246-247): one copy of each declared name, the primary-key
column removed. -/
def targetFieldsBulk (fields : List String) (pkName : String) : List String :=
  (dedupeList fields).filter (fun c => decide (c ≠ pkName))

/-- The `extract_row` closure (repository.py lines 251-257): primary-key value
of the entity plus the data dictionary `{col: getattr(e, col) for col in
target_fields}`; a missing key raises. -/
def extract_row (pkName : String) (targetFields : List String) (e : Row) :
    Except String (Nat × Row) :=
  match e.get pkName with
  | none => .error missingPkBulkMsg
  | some v => .ok (v, ⟨targetFields.map (fun col => (col, e.get col))⟩)

/-- One per-column `case(*when_pairs, else_=current_column)` expression
(repository.py lines 269-276) evaluated at a row: the first when-pair whose
primary-key test matches supplies the value, otherwise the row keeps its
current stored value. -/
def caseEval (pkName : String) (chunk : List (Nat × Row)) (col : String)
    (r : Row) : Option Nat :=
  match chunk.find? (fun p => decide (r.get pkName = some p.1)) with
  | some p => p.2.get col
  | none => r.get col

/-- The WHERE test `pk_col.in_(ids)` of one chunk UPDATE. -/
def rowMatches (pkName : String) (ids : List Nat) (r : Row) : Bool :=
  ids.any (fun i => decide (r.get pkName = some i))

/-- Execution of one chunk statement `sa_update(self.model)
.where(pk_col.in_(ids)).values(**values_dict)` (repository.py lines 278-284):
every row whose key is in the chunk id list gets each target column replaced by
its case expression, evaluated against the row before the update; the reported
row count is the number of matched rows. -/
def applyStmt (pkName : String) (targetFields : List String)
    (chunk : List (Nat × Row)) (store : List Row) : List Row × Nat :=
  (store.map (fun r =>
      if rowMatches pkName (chunk.map (fun p => p.1)) r then
        targetFields.foldl (fun acc col => acc.set col (caseEval pkName chunk col r)) r
      else r),
   store.countP (rowMatches pkName (chunk.map (fun p => p.1))))

/-- One iteration of the chunk loop: updated store, accumulated
`total_updated`, number of statements issued so far. -/
def bulkStep (pkName : String) (targetFields : List String)
    (acc : List Row × Nat × Nat) (chunk : List (Nat × Row)) :
    List Row × Nat × Nat :=
  let st := applyStmt pkName targetFields chunk acc.1
  (st.1, acc.2.1 + st.2, acc.2.2 + 1)

/-- The embedding of `bulk_update_entities` (repository.py lines 218-287).
Returns the updated store, the accumulated `total_updated` and the number of
UPDATE statements issued. -/
def bulk_update_entities (store : List Row) (pkName : String) (numPkCols : Nat)
    (entities : List Row) (fields : List String) (chunkSize : Nat) :
    Except String (List Row × Nat × Nat) :=
  if entities = [] then .ok (store, 0, 0)
  else if numPkCols ≠ 1 then .error compositeKeyMsgBulk
  else if fields = [] then .error emptyFieldsMsg
  else
    let target_fields := targetFieldsBulk fields pkName
    if target_fields = [] then .ok (store, 0, 0)
    else
      match entities.mapM (extract_row pkName target_fields) with
      | .error e => .error e
      | .ok rows =>
        .ok ((chunksOf chunkSize rows).foldl (bulkStep pkName target_fields)
          (store, 0, 0))

def exStore2 : List Row := [⟨[("id", some 1), ("a", some 10), ("b", some 20)]⟩]

def exEnts2 : List Row := [⟨[("id", some 1), ("a", some 11), ("b", some 99)]⟩]

def exStore2Post : List Row :=
  [⟨[("a", some 11), ("id", some 1), ("a", some 10), ("b", some 20)]⟩]

def exEnts5 : List Row :=
  [⟨[("id", some 1), ("a", some 1)]⟩, ⟨[("id", some 2), ("a", some 2)]⟩,
   ⟨[("id", some 3), ("a", some 3)]⟩, ⟨[("id", some 4), ("a", some 4)]⟩,
   ⟨[("id", some 5), ("a", some 5)]⟩]

def compositeKeyMsgDelete : String :=
  "delete(): composite primary key is not supported"

/-- The embedding of `delete` (repository.py lines 206-214): a single DELETE
restricted to the primary-key equality, whose row count is the number of rows
removed; the method returns whether that count is positive. -/
def delete (store : List Row) (pkName : String) (numPkCols : Nat) (pk : Nat) :
    Except String (List Row × Bool) :=
  if numPkCols ≠ 1 then .error compositeKeyMsgDelete
  else
    .ok (store.filter (fun r => decide (¬ r.get pkName = some pk)),
      decide (0 < store.countP (fun r => decide (r.get pkName = some pk))))

def missingPkMsgUpd : String :=
  "update_entity(): primary key must be set on entity"

def notFoundMsgUpd : String :=
  "update_entity(): entity not found"

/-- The target column set of `update_entity` (repository.py lines 178-181):
all declared columns when `fields` is omitted, else exactly `fields`, with one
copy of each name and the primary-key columns removed. -/
def targetFieldsUpd (allCols : List String) (fields : Option (List String))
    (pkNames : List String) : List String :=
  (dedupeList (fields.getD allCols)).filter (fun c => decide (c ∉ pkNames))

/-- The copy loop `for name in target_fields: setattr(current, name,
getattr(entity, name))` (repository.py lines 184-185). -/
def applyFields (targetFields : List String) (entity : Row) (current : Row) : Row :=
  targetFields.foldl (fun acc name => acc.set name (entity.get name)) current

/-- The `session.get` plus in-place mutation of the loaded row: replaces the
first row satisfying the predicate by its image under f, returning the new
store together with the mutated row, or nothing when no row matches. -/
def updateFirst (p : Row → Bool) (f : Row → Row) : List Row → Option (List Row × Row)
  | [] => none
  | r :: rs =>
    if p r then some (f r :: rs, f r)
    else match updateFirst p f rs with
      | none => none
      | some (rs2, r2) => some (r :: rs2, r2)

/-- The identity test of `session.get(self.model, pk_identity)`: every
primary-key column of the row equals the extracted value. -/
def pkMatches (pkNames : List String) (pkValues : List Nat) (r : Row) : Bool :=
  (pkNames.zip pkValues).all (fun q => decide (r.get q.1 = some q.2))

/-- The embedding of `update_entity` (repository.py lines 146-188): extract the
primary-key values (raising when one is unset), load the matching row (raising
when absent), then copy the target columns of the patch entity onto it. -/
def update_entity (store : List Row) (allCols : List String)
    (pkNames : List String) (entity : Row) (fields : Option (List String)) :
    Except String (List Row × Row) :=
  match pkNames.mapM (fun c => entity.get c) with
  | none => .error missingPkMsgUpd
  | some pkValues =>
    match updateFirst (pkMatches pkNames pkValues)
        (applyFields (targetFieldsUpd allCols fields pkNames) entity) store with
    | none => .error notFoundMsgUpd
    | some (store2, cur) => .ok (store2, cur)

def exPatchRow : Row := ⟨[("id", some 1), ("title", some 77), ("body", some 88)]⟩

def exStored3 : Row := ⟨[("id", some 1), ("title", some 7), ("body", some 8)]⟩

/-- The instance-state classification read off `sa_inspect(obj)`:
New is transient, Tracked is persistent in the active session, Foreign is
detached. -/
inductive EntityState where
  | New
  | Tracked
  | Foreign
deriving DecidableEq

/-- An ORM model instance as seen by the write paths: its lifecycle state and
its assigned identity (none before the database assigns one). -/
structure OrmEntity where
  state : EntityState
  ident : Option Nat
deriving DecidableEq

/-- The active session: the entities registered with it and the next identity
the database will assign on flush. -/
structure Sess where
  registered : List OrmEntity
  nextId : Nat
deriving DecidableEq

def notTransientCreateMsg : String :=
  "create(): expected a transient (new) SQLAlchemy model instance"

def notTransientBulkMsg : String :=
  "bulk_create(): all models must be transient (new)"

/-- The embedding of `create` (repository.py lines 112-124): reject any
non-transient instance, otherwise `session.add` plus `flush`, which assigns
the identity and makes the instance persistent. -/
def create (s : Sess) (obj : OrmEntity) : Except String (Sess × OrmEntity) :=
  if obj.state ≠ EntityState.New then .error notTransientCreateMsg
  else
    .ok ({ registered := s.registered ++ [⟨EntityState.Tracked, some s.nextId⟩],
           nextId := s.nextId + 1 },
      ⟨EntityState.Tracked, some s.nextId⟩)

/-- The effect of `flush` after `add_all`: each newly registered entity becomes
persistent with a fresh consecutive identity. -/
def assignIdents (n : Nat) : List OrmEntity → List OrmEntity
  | [] => []
  | _ :: ms => ⟨EntityState.Tracked, some n⟩ :: assignIdents (n + 1) ms

/-- The embedding of `bulk_create` (repository.py lines 189-204): an empty list
is a no-op returning 0; otherwise every model is checked to be transient
before `add_all` runs, so one non-transient model anywhere fails the whole
call with nothing registered; when all are transient they are registered in
one batch, flush assigns each an identity, and the count is returned. -/
def bulk_create (s : Sess) (models : List OrmEntity) : Except String (Sess × Nat) :=
  if models = [] then .ok (s, 0)
  else if models.all (fun m => decide (m.state = EntityState.New)) then
    .ok ({ registered := s.registered ++ assignIdents s.nextId models,
           nextId := s.nextId + models.length }, models.length)
  else .error notTransientBulkMsg

@[simp] theorem Row.get_set_self (r : Row) (c : String) (v : Option Nat) :
    (r.set c v).get c = v := by
  simp [Row.get, Row.set, lookupAttr]

theorem Row.get_set_ne (r : Row) (c c' : String) (v : Option Nat)
    (h : c' ≠ c) : (r.set c v).get c' = r.get c' := by
  simp [Row.get, Row.set, lookupAttr, Ne.symm h]

theorem chunksOfAux_nil (c fuel : Nat) : chunksOfAux c fuel ([] : List α) = [] := by
  cases fuel <;> rfl

theorem chunksOfAux_fuel (c : Nat) (hc : c ≠ 0) :
    ∀ (f1 : Nat) (l : List α) (f2 : Nat), l.length ≤ f1 → l.length ≤ f2 →
      chunksOfAux c f1 l = chunksOfAux c f2 l := by
  intro f1
  induction f1 with
  | zero =>
    intro l f2 h1 _
    have : l = [] := List.eq_nil_of_length_eq_zero (Nat.le_zero.mp h1)
    subst this
    simp [chunksOfAux_nil]
  | succ g ih =>
    intro l f2 h1 h2
    cases l with
    | nil => simp [chunksOfAux_nil]
    | cons x xs =>
      cases f2 with
      | zero => simp at h2
      | succ g2 =>
        show ((x :: xs).take c) :: chunksOfAux c g ((x :: xs).drop c)
            = ((x :: xs).take c) :: chunksOfAux c g2 ((x :: xs).drop c)
        have hd : ((x :: xs).drop c).length ≤ g := by
          simp only [List.length_drop, List.length_cons] at *
          omega
        have hd2 : ((x :: xs).drop c).length ≤ g2 := by
          simp only [List.length_drop, List.length_cons] at *
          omega
        rw [ih ((x :: xs).drop c) g2 hd hd2]

@[simp] theorem chunksOf_nil (c : Nat) : chunksOf c ([] : List α) = [] := rfl

theorem chunksOf_pos (c : Nat) (hc : c ≠ 0) (l : List α) (hl : l ≠ []) :
    chunksOf c l = l.take c :: chunksOf c (l.drop c) := by
  cases l with
  | nil => exact absurd rfl hl
  | cons x xs =>
    show chunksOfAux c (xs.length + 1) (x :: xs) = _
    show ((x :: xs).take c) :: chunksOfAux c xs.length ((x :: xs).drop c) = _
    rw [chunksOfAux_fuel c hc xs.length ((x :: xs).drop c) ((x :: xs).drop c).length
      (by simp [List.length_drop]; omega) (Nat.le_refl _)]
    rfl

theorem flatten_chunksOf (c : Nat) (hc : c ≠ 0) :
    ∀ (l : List α), (chunksOf c l).flatten = l
  | [] => by simp
  | x :: xs => by
    rw [chunksOf_pos c hc (x :: xs) (by simp)]
    rw [List.flatten_cons, flatten_chunksOf c hc ((x :: xs).drop c)]
    exact List.take_append_drop c (x :: xs)
termination_by l => l.length
decreasing_by simp [List.length_drop]; omega

theorem mem_chunksOf (c : Nat) (hc : c ≠ 0) :
    ∀ (l : List α), ∀ ch ∈ chunksOf c l, ch ≠ [] ∧ ch.length ≤ c
  | [] => by simp
  | x :: xs => by
    intro ch hch
    rw [chunksOf_pos c hc (x :: xs) (by simp)] at hch
    rcases List.mem_cons.mp hch with h | h
    · subst h
      constructor
      · simp [List.take_eq_nil_iff]  -- nonempty since the list is nonempty and c ≠ 0
        omega
      · simp
    · exact mem_chunksOf c hc ((x :: xs).drop c) ch h
termination_by l => l.length
decreasing_by simp [List.length_drop]; omega

theorem ceilDiv_succ (n c : Nat) (hc : c ≠ 0) (hn : n ≠ 0) :
    (n + c - 1) / c = (n - c + c - 1) / c + 1 := by
  have hc1 : 0 < c := Nat.pos_of_ne_zero hc
  have e1 : n + c - 1 = (n - 1) + c := by omega
  rw [e1, Nat.add_div_right _ hc1]
  rcases le_or_lt n c with hle | hlt
  · have h0 : n - c = 0 := by omega
    rw [h0]
    rw [Nat.div_eq_of_lt (show n - 1 < c by omega),
      Nat.div_eq_of_lt (show 0 + c - 1 < c by omega)]
  · have e2 : n - c + c - 1 = (n - 1 - c) + c := by omega
    rw [e2, Nat.add_div_right _ hc1]
    have e3 : n - 1 = (n - 1 - c) + c := by omega
    conv_lhs => rw [e3, Nat.add_div_right _ hc1]

theorem length_chunksOf (c : Nat) (hc : c ≠ 0) :
    ∀ (l : List α), (chunksOf c l).length = (l.length + c - 1) / c
  | [] => by
    rw [chunksOf_nil]
    simp only [List.length_nil, Nat.zero_add]
    exact (Nat.div_eq_of_lt (by omega)).symm
  | x :: xs => by
    rw [chunksOf_pos c hc (x :: xs) (by simp)]
    rw [List.length_cons, length_chunksOf c hc ((x :: xs).drop c)]
    simp only [List.length_drop, List.length_cons]
    exact (ceilDiv_succ (xs.length + 1) c hc (by omega)).symm
termination_by l => l.length
decreasing_by simp [List.length_drop]; omega

theorem mem_dedupeAux [DecidableEq α] :
    ∀ (l seen : List α) (x : α), x ∈ dedupeAux seen l ↔ x ∈ l ∧ x ∉ seen := by
  intro l
  induction l with
  | nil => intro seen x; simp [dedupeAux]
  | cons y ys ih =>
    intro seen x
    by_cases hy : y ∈ seen
    · rw [dedupeAux, if_pos hy, ih]
      constructor
      · rintro ⟨hx, hs⟩; exact ⟨List.mem_cons_of_mem _ hx, hs⟩
      · rintro ⟨hx, hs⟩
        rcases List.mem_cons.mp hx with h | h
        · exact absurd (h ▸ hy) hs
        · exact ⟨h, hs⟩
    · rw [dedupeAux, if_neg hy]
      constructor
      · intro hx
        rcases List.mem_cons.mp hx with h | h
        · exact ⟨h ▸ List.mem_cons_self _ _, h ▸ hy⟩
        · rcases (ih _ _).mp h with ⟨h1, h2⟩
          exact ⟨List.mem_cons_of_mem _ h1, fun hs => h2 (List.mem_cons_of_mem _ hs)⟩
      · rintro ⟨hx, hs⟩
        rcases List.mem_cons.mp hx with h | h
        · exact h ▸ List.mem_cons_self _ _
        · by_cases hxy : x = y
          · exact hxy ▸ List.mem_cons_self _ _
          · exact List.mem_cons_of_mem _
              ((ih _ _).mpr ⟨h, by simp [hxy, hs]⟩)

theorem mem_dedupeList [DecidableEq α] (l : List α) (x : α) :
    x ∈ dedupeList l ↔ x ∈ l := by
  rw [dedupeList, mem_dedupeAux]
  simp

theorem nodup_dedupeAux [DecidableEq α] :
    ∀ (l seen : List α), (dedupeAux seen l).Nodup := by
  intro l
  induction l with
  | nil => intro seen; simp [dedupeAux]
  | cons y ys ih =>
    intro seen
    by_cases hy : y ∈ seen
    · rw [dedupeAux, if_pos hy]; exact ih seen
    · rw [dedupeAux, if_neg hy]
      refine List.nodup_cons.mpr ⟨?_, ih (y :: seen)⟩
      intro hmem
      exact ((mem_dedupeAux ys (y :: seen) y).mp hmem).2 (List.mem_cons_self _ _)

theorem nodup_dedupeList [DecidableEq α] (l : List α) : (dedupeList l).Nodup :=
  nodup_dedupeAux l []

theorem sublist_dedupeAux [DecidableEq α] :
    ∀ (l seen : List α), (dedupeAux seen l).Sublist l := by
  intro l
  induction l with
  | nil => intro seen; simp [dedupeAux]
  | cons y ys ih =>
    intro seen
    by_cases hy : y ∈ seen
    · rw [dedupeAux, if_pos hy]; exact (ih seen).cons y
    · rw [dedupeAux, if_neg hy]; exact (ih (y :: seen)).cons₂ y

/-- Helper for the first-occurrence-order lemma: positions computed in the tail
shift by one when the list is extended at the head by an element none of the
pairwise list's members equal. -/
theorem pairwise_indexOf_cons [DecidableEq α] (y : α) (ys : List α) (m : List α)
    (hm : ∀ x ∈ m, x ≠ y)
    (h : m.Pairwise (fun a b => ys.indexOf a < ys.indexOf b)) :
    m.Pairwise (fun a b => (y :: ys).indexOf a < (y :: ys).indexOf b) := by
  induction m with
  | nil => simp
  | cons a m2 ih =>
    rcases List.pairwise_cons.mp h with ⟨ha, hrest⟩
    refine List.pairwise_cons.mpr ⟨?_, ?_⟩
    · intro b hb
      have hay : a ≠ y := hm a (List.mem_cons_self _ _)
      have hby : b ≠ y := hm b (List.mem_cons_of_mem _ hb)
      rw [List.indexOf_cons_ne _ (Ne.symm hay), List.indexOf_cons_ne _ (Ne.symm hby)]
      exact Nat.succ_lt_succ (ha b hb)
    · exact ih (fun x hx => hm x (List.mem_cons_of_mem _ hx)) hrest

theorem pairwise_indexOf_dedupeAux [DecidableEq α] :
    ∀ (l seen : List α),
      (dedupeAux seen l).Pairwise (fun a b => l.indexOf a < l.indexOf b) := by
  intro l
  induction l with
  | nil => intro seen; simp [dedupeAux]
  | cons y ys ih =>
    intro seen
    by_cases hy : y ∈ seen
    · rw [dedupeAux, if_pos hy]
      refine pairwise_indexOf_cons y ys _ ?_ (ih seen)
      intro x hx
      intro hxy
      exact ((mem_dedupeAux ys seen x).mp hx).2 (hxy ▸ hy)
    · rw [dedupeAux, if_neg hy]
      refine List.pairwise_cons.mpr ⟨?_, ?_⟩
      · intro b hb
        have hb2 := (mem_dedupeAux ys (y :: seen) b).mp hb
        have hby : b ≠ y := fun h => hb2.2 (h ▸ List.mem_cons_self _ _)
        rw [List.indexOf_cons_self, List.indexOf_cons_ne _ (Ne.symm hby)]
        exact Nat.succ_pos _
      · refine pairwise_indexOf_cons y ys _ ?_ (ih (y :: seen))
        intro x hx hxy
        exact ((mem_dedupeAux ys (y :: seen) x).mp hx).2 (hxy ▸ List.mem_cons_self _ _)

theorem pairwise_indexOf_dedupeList [DecidableEq α] (l : List α) :
    (dedupeList l).Pairwise (fun a b => l.indexOf a < l.indexOf b) :=
  pairwise_indexOf_dedupeAux l []

theorem length_dedupeList_toFinset [DecidableEq α] (l : List α) :
    (dedupeList l).length = l.toFinset.card := by
  have h1 : (dedupeList l).toFinset = l.toFinset := by
    ext x
    simp [List.mem_toFinset, mem_dedupeList]
  rw [← h1, List.toFinset_card_of_nodup (nodup_dedupeList l)]

theorem foldl_append_eq_flatten (f : β → List α) :
    ∀ (l : List β) (init : List α),
      l.foldl (fun acc b => acc ++ f b) init = init ++ (l.map f).flatten := by
  intro l
  induction l with
  | nil => intro init; simp
  | cons b bs ih =>
    intro init
    simp only [List.foldl_cons, List.map_cons, List.flatten_cons]
    rw [ih (init ++ f b)]
    simp [List.append_assoc]

theorem find?_eq_some_of_unique (p : α → Bool) (l : List α)
    (hu : ∀ a ∈ l, ∀ b ∈ l, p a = true → p b = true → a = b) (r : α) :
    l.find? p = some r ↔ r ∈ l ∧ p r = true := by
  constructor
  · intro h
    exact ⟨List.mem_of_find?_eq_some h, List.find?_some h⟩
  · rintro ⟨hmem, hp⟩
    have hs : (l.find? p).isSome := List.find?_isSome.mpr ⟨r, hmem, hp⟩
    rcases Option.isSome_iff_exists.mp hs with ⟨r2, hr2⟩
    have := hu r2 (List.mem_of_find?_eq_some hr2) r hmem (List.find?_some hr2) hp
    rw [hr2, this]

theorem mem_selectChunk (store : List Row) (pkName : String) (chunk : List Nat)
    (r : Row) :
    r ∈ selectChunk store pkName chunk ↔
      r ∈ store ∧ ∃ i ∈ chunk, r.get pkName = some i := by
  simp [selectChunk, List.mem_filter]

/-- The fetched rows of the non-MySQL keep-order path, looked up through the
`by_id` dictionary, coincide with a direct first-match lookup in the store:
chunking, in-chunk filtering and the dictionary rebuild lose nothing, provided
the id was queried in some chunk and defined primary keys identify rows. -/
theorem lastWithPk_fetch (store : List Row) (pkName : String)
    (chunks : List (List Nat)) (i : Nat)
    (hi : ∃ ch ∈ chunks, i ∈ ch)
    (hu : ∀ a ∈ store, ∀ b ∈ store,
        a.get pkName = b.get pkName → (a.get pkName).isSome → a = b) :
    lastWithPk pkName ((chunks.map (selectChunk store pkName)).flatten) i
      = store.find? (fun r => decide (r.get pkName = some i)) := by
  have hmem : ∀ r : Row,
      (r ∈ (chunks.map (selectChunk store pkName)).flatten ∧ r.get pkName = some i)
        ↔ (r ∈ store ∧ r.get pkName = some i) := by
    intro r
    constructor
    · rintro ⟨hr, hpr⟩
      rcases List.mem_flatten.mp hr with ⟨sel, hsel, hrs⟩
      rcases List.mem_map.mp hsel with ⟨ch, _, rfl⟩
      exact ⟨((mem_selectChunk _ _ _ _).mp hrs).1, hpr⟩
    · rintro ⟨hr, hpr⟩
      rcases hi with ⟨ch, hch, hich⟩
      refine ⟨List.mem_flatten.mpr
        ⟨selectChunk store pkName ch, List.mem_map_of_mem _ hch, ?_⟩, hpr⟩
      exact (mem_selectChunk _ _ _ _).mpr ⟨hr, i, hich, hpr⟩
  have huniq : ∀ a b : Row, a ∈ store → b ∈ store →
      a.get pkName = some i → b.get pkName = some i → a = b := by
    intro a b ha hb ea eb
    exact hu a ha b hb (ea.trans eb.symm) (by simp [ea])
  show (chunks.map (selectChunk store pkName)).flatten.reverse.find?
      (fun r => decide (r.get pkName = some i)) = _
  cases hfind : store.find? (fun r => decide (r.get pkName = some i)) with
  | none =>
    have hnone := List.find?_eq_none.mp hfind
    apply List.find?_eq_none.mpr
    intro x hx hpx
    have hx2 : x ∈ (chunks.map (selectChunk store pkName)).flatten :=
      List.mem_reverse.mp hx
    have := (hmem x).mp ⟨hx2, of_decide_eq_true hpx⟩
    exact hnone x this.1 hpx
  | some r =>
    have hrmem : r ∈ store := List.mem_of_find?_eq_some hfind
    have hrp0 := List.find?_some hfind
    simp only [decide_eq_true_eq] at hrp0
    have hrp : r.get pkName = some i := hrp0
    have hrf : r ∈ (chunks.map (selectChunk store pkName)).flatten :=
      ((hmem r).mpr ⟨hrmem, hrp⟩).1
    apply (find?_eq_some_of_unique _ _ ?_ r).mpr
      ⟨List.mem_reverse.mpr hrf, decide_eq_true hrp⟩
    intro a ha b hb hpa hpb
    have ha2 := (hmem a).mp ⟨List.mem_reverse.mp ha, of_decide_eq_true hpa⟩
    have hb2 := (hmem b).mp ⟨List.mem_reverse.mp hb, of_decide_eq_true hpb⟩
    exact huniq a b ha2.1 hb2.1 ha2.2 hb2.2

/-- C1: for every non-empty id sequence, `get_many_by_ids` with
`keep_order=true` against a store whose dialect is not mysql returns exactly
the stored rows for the ids in their original post-dedupe order, silently
skipping any id with no matching row (`find?` yields `none` there and
`filterMap` drops it), so the result may be shorter than the id list. -/
theorem C1_keep_order_application_side (store : List Row) (pkName : String)
    (ids : List Nat) (chunkSize : Nat) (hids : ids ≠ []) (hc : chunkSize ≠ 0)
    (hu : ∀ a ∈ store, ∀ b ∈ store,
        a.get pkName = b.get pkName → (a.get pkName).isSome → a = b) :
    get_many_by_ids store pkName 1 ids true chunkSize true false =
      .ok ((dedupeList ids).filterMap
        (fun i => store.find? (fun r => decide (r.get pkName = some i)))) := by
  simp only [get_many_by_ids, if_neg hids, if_neg (show ¬ (1 ≠ 1) by simp),
    Bool.and_false, Bool.false_eq_true, if_false, Bool.not_false, Bool.and_true,
    if_true, if_pos rfl]
  rw [foldl_append_eq_flatten]
  simp only [List.nil_append]
  congr 1
  apply List.filterMap_congr
  intro i hi
  apply lastWithPk_fetch
  · have hflat : i ∈ (chunksOf chunkSize (dedupeList ids)).flatten := by
      rw [flatten_chunksOf chunkSize hc]
      exact hi
    exact List.mem_flatten.mp hflat
  · exact hu

theorem C1_witness :
    get_many_by_ids exStore1 "id" 1 [5, 2, 9] true 1000 true false =
      Except.ok [exR5, exR2, exR9] :=
  (C1_keep_order_application_side exStore1 "id" [5, 2, 9] 1000 (by decide)
    (by decide) (by decide)).trans rfl

theorem mem_targetFieldsBulk (fields : List String) (pkName col : String) :
    col ∈ targetFieldsBulk fields pkName ↔ col ∈ fields ∧ col ≠ pkName := by
  simp [targetFieldsBulk, List.mem_filter, mem_dedupeList]

theorem foldl_set_get_not_mem (g : String → Option Nat) :
    ∀ (tf : List String) (r : Row) (col : String), col ∉ tf →
      (tf.foldl (fun acc c => acc.set c (g c)) r).get col = r.get col := by
  intro tf
  induction tf with
  | nil => intro r col _; rfl
  | cons t ts ih =>
    intro r col hcol
    simp only [List.foldl_cons]
    rw [ih _ col (fun h => hcol (List.mem_cons_of_mem _ h))]
    exact Row.get_set_ne _ _ _ _ (fun h => hcol (h ▸ List.mem_cons_self _ _))

theorem foldl_set_get_mem (g : String → Option Nat) :
    ∀ (tf : List String) (r : Row) (col : String), col ∈ tf →
      (tf.foldl (fun acc c => acc.set c (g c)) r).get col = g col := by
  intro tf
  induction tf with
  | nil => intro r col h; simp at h
  | cons t ts ih =>
    intro r col hcol
    simp only [List.foldl_cons]
    by_cases hts : col ∈ ts
    · exact ih _ col hts
    · have hct : col = t := by
        rcases List.mem_cons.mp hcol with h | h
        · exact h
        · exact absurd h hts
      rw [foldl_set_get_not_mem g ts _ col hts, hct, Row.get_set_self]

theorem forall₂_get_trans (col : String) :
    ∀ (l1 l2 l3 : List Row),
      List.Forall₂ (fun r r2 => r2.get col = r.get col) l1 l2 →
      List.Forall₂ (fun r r2 => r2.get col = r.get col) l2 l3 →
      List.Forall₂ (fun r r2 => r2.get col = r.get col) l1 l3 := by
  intro l1
  induction l1 with
  | nil =>
    intro l2 l3 h12 h23
    cases h12
    cases h23
    exact List.Forall₂.nil
  | cons a as ih =>
    intro l2 l3 h12 h23
    cases h12 with
    | cons hab h12rest =>
      cases h23 with
      | cons hbc h23rest =>
        exact List.Forall₂.cons (hbc.trans hab) (ih _ _ h12rest h23rest)

theorem applyStmt_frame (pkName : String) (tf : List String) (col : String)
    (hcol : col ∉ tf) (chunk : List (Nat × Row)) (store : List Row) :
    List.Forall₂ (fun r r2 => r2.get col = r.get col) store
      (applyStmt pkName tf chunk store).1 := by
  show List.Forall₂ _ store (store.map _)
  rw [List.forall₂_map_right_iff]
  apply List.forall₂_same.mpr
  intro r _
  by_cases hm : rowMatches pkName (chunk.map (fun p => p.1)) r
  · simp only [if_pos hm]
    exact foldl_set_get_not_mem _ tf r col hcol
  · simp only [if_neg hm]

theorem fold_bulkStep_frame (pkName : String) (tf : List String) (col : String)
    (hcol : col ∉ tf) :
    ∀ (chunks : List (List (Nat × Row))) (acc : List Row × Nat × Nat),
      List.Forall₂ (fun r r2 => r2.get col = r.get col) acc.1
        ((chunks.foldl (bulkStep pkName tf) acc).1) := by
  intro chunks
  induction chunks with
  | nil =>
    intro acc
    exact List.forall₂_same.mpr (fun a _ => rfl)
  | cons ch chs ih =>
    intro acc
    rw [List.foldl_cons]
    refine forall₂_get_trans col _ _ _ ?_ (ih (bulkStep pkName tf acc ch))
    exact applyStmt_frame pkName tf col hcol ch acc.1

/-- C2: a successful `bulk_update_entities` call never modifies a column
outside the caller-declared field set and never modifies the primary-key
column even when it is listed (the update touches only `fields` minus the
primary key), and every per-column case expression falls back to the current
stored value on a row whose key matches none of the chunk keys. -/
theorem C2_bulk_update_frame (store : List Row) (pkName : String)
    (entities : List Row) (fields : List String) (chunkSize : Nat)
    (store2 : List Row) (updated stmts : Nat)
    (h : bulk_update_entities store pkName 1 entities fields chunkSize
        = .ok (store2, updated, stmts)) :
    (∀ col, col ∉ fields ∨ col = pkName →
      List.Forall₂ (fun r r2 => r2.get col = r.get col) store store2) ∧
    (∀ (chunk : List (Nat × Row)) (col : String) (r : Row),
      (∀ p ∈ chunk, r.get pkName ≠ some p.1) →
      caseEval pkName chunk col r = r.get col) := by
  constructor
  · intro col hcol
    have hcol2 : col ∉ targetFieldsBulk fields pkName := by
      intro hmem
      rcases (mem_targetFieldsBulk fields pkName col).mp hmem with ⟨h1, h2⟩
      rcases hcol with h3 | h3
      · exact h3 h1
      · exact h2 h3
    by_cases h1 : entities = []
    · simp only [bulk_update_entities, if_pos h1, Except.ok.injEq, Prod.mk.injEq] at h
      rcases h with ⟨rfl, -⟩
      exact List.forall₂_same.mpr (fun a _ => rfl)
    · by_cases h2 : fields = []
      · simp [bulk_update_entities, if_neg h1, h2] at h
      · simp only [bulk_update_entities, if_neg h1, if_neg (show ¬(1 ≠ 1) by simp),
          if_neg h2] at h
        by_cases h3 : targetFieldsBulk fields pkName = []
        · simp only [if_pos h3, Except.ok.injEq, Prod.mk.injEq] at h
          rcases h with ⟨rfl, -⟩
          exact List.forall₂_same.mpr (fun a _ => rfl)
        · simp only [if_neg h3] at h
          cases hm : entities.mapM (extract_row pkName (targetFieldsBulk fields pkName)) with
          | error e => rw [hm] at h; exact absurd h (by simp)
          | ok rows =>
            rw [hm] at h
            simp only [Except.ok.injEq] at h
            have hst : ((chunksOf chunkSize rows).foldl
                (bulkStep pkName (targetFieldsBulk fields pkName))
                (store, 0, 0)).1 = store2 := by
              rw [h]
            rw [← hst]
            exact fold_bulkStep_frame pkName _ col hcol2 _ (store, 0, 0)
  · intro chunk col r hnone
    rw [caseEval, List.find?_eq_none.mpr]
    intro p hp
    simpa using hnone p hp

theorem C2_witness :
    bulk_update_entities exStore2 "id" 1 exEnts2 ["a", "id"] 2
      = Except.ok (exStore2Post, 1, 1) ∧
    List.Forall₂ (fun r r2 => r2.get "b" = r.get "b") exStore2 exStore2Post :=
  ⟨rfl, (C2_bulk_update_frame exStore2 "id" exEnts2 ["a", "id"] 2
    exStore2Post 1 1 rfl).1 "b" (Or.inl (by decide))⟩

/-- C4 counterexample: a field set containing only the primary-key column is
non-empty, so the code takes the `target_fields.discard` path, finds the
remaining target set empty and returns a no-op success 0 — it does not raise
the empty-field-set error, contradicting the claim that the error fires
whenever the set minus the primary key is empty. -/
theorem C4_counterexample :
    bulk_update_entities [] "id" 1 [⟨[("id", some 1)]⟩] ["id"] 1000
        = Except.ok ([], 0, 0) ∧
      targetFieldsBulk ["id"] "id" = [] :=
  ⟨rfl, rfl⟩

/-- C4 amended: the empty-field-set error is raised exactly when the supplied
field set itself is empty (given a non-empty entity list and a single-column
key); a non-empty field set that reduces to nothing after removing the
primary-key column instead returns a no-op success of 0 with no statements
issued, as does an empty entity list. -/
theorem C4_empty_field_dispatch (store : List Row) (pkName : String)
    (entities : List Row) (fields : List String) (chunkSize : Nat) :
    (entities ≠ [] →
      bulk_update_entities store pkName 1 entities [] chunkSize
        = .error emptyFieldsMsg) ∧
    (entities ≠ [] → fields ≠ [] → targetFieldsBulk fields pkName = [] →
      bulk_update_entities store pkName 1 entities fields chunkSize
        = .ok (store, 0, 0)) ∧
    (bulk_update_entities store pkName 1 [] fields chunkSize
        = .ok (store, 0, 0)) := by
  refine ⟨?_, ?_, ?_⟩
  · intro hne
    simp [bulk_update_entities, if_neg hne]
  · intro hne hf htf
    simp [bulk_update_entities, if_neg hne, hf, htf]
  · simp [bulk_update_entities]

theorem C4_witness :
    bulk_update_entities [] "id" 1 [⟨[("id", some 1)]⟩] [] 1000
        = Except.error emptyFieldsMsg ∧
      bulk_update_entities [] "id" 1 [⟨[("id", some 1)]⟩] ["id"] 1000
        = Except.ok ([], 0, 0) :=
  ⟨(C4_empty_field_dispatch [] "id" [⟨[("id", some 1)]⟩] [] 1000).1 (by decide),
   (C4_empty_field_dispatch [] "id" [⟨[("id", some 1)]⟩] ["id"] 1000).2.1
     (by decide) (by decide) rfl⟩

theorem mapM_extract_error (pkName : String) (tf : List String) :
    ∀ (l : List Row), (∃ e ∈ l, e.get pkName = none) →
      l.mapM (extract_row pkName tf) = .error missingPkBulkMsg := by
  intro l
  induction l with
  | nil =>
    rintro ⟨e, he, -⟩
    simp at he
  | cons x xs ih =>
    rintro ⟨e, he, hnone⟩
    rw [List.mapM_cons]
    cases hg : x.get pkName with
    | none =>
      simp only [extract_row, hg]
      rfl
    | some v =>
      have hmem : e ∈ xs := by
        rcases List.mem_cons.mp he with rfl | hmem
        · rw [hg] at hnone; exact absurd hnone (by simp)
        · exact hmem
      simp only [extract_row, hg]
      rw [ih ⟨e, hmem, hnone⟩]
      rfl

/-- C10: `bulk_update_entities` extracts and validates every entity's
primary-key value before the chunk loop starts, so one entity without a key
anywhere in the list makes the whole call fail with the missing-key error and
no UPDATE statement is issued for any chunk — the store of a failing call is
never transformed. -/
theorem C10_missing_key_precheck (store : List Row) (pkName : String)
    (entities : List Row) (fields : List String) (chunkSize : Nat)
    (hfields : fields ≠ []) (htf : targetFieldsBulk fields pkName ≠ [])
    (hmiss : ∃ e ∈ entities, e.get pkName = none) :
    bulk_update_entities store pkName 1 entities fields chunkSize
      = .error missingPkBulkMsg := by
  have hne : entities ≠ [] := by
    rintro rfl
    rcases hmiss with ⟨e, he, -⟩
    simp at he
  simp only [bulk_update_entities, if_neg hne, if_neg (show ¬(1 ≠ 1) by simp),
    if_neg hfields, if_neg htf]
  rw [mapM_extract_error pkName _ entities hmiss]

theorem C10_witness :
    bulk_update_entities [] "id" 1
        [⟨[("id", some 7), ("a", some 1)]⟩, ⟨[("a", some 2)]⟩] ["a"] 1
      = Except.error missingPkBulkMsg :=
  C10_missing_key_precheck [] "id"
    [⟨[("id", some 7), ("a", some 1)]⟩, ⟨[("a", some 2)]⟩] ["a"] 1
    (by decide) (by decide)
    ⟨⟨[("a", some 2)]⟩, by decide, rfl⟩

theorem mapM_ok_length (f : Row → Except String (Nat × Row)) :
    ∀ (l : List Row) (rows : List (Nat × Row)),
      l.mapM f = .ok rows → rows.length = l.length := by
  intro l
  induction l with
  | nil =>
    intro rows h
    have h2 : (Except.ok [] : Except String (List (Nat × Row))) = .ok rows := h
    injection h2 with h3
    rw [← h3]
    rfl
  | cons x xs ih =>
    intro rows h
    rw [List.mapM_cons] at h
    cases hfx : f x with
    | error e =>
      rw [hfx] at h
      exact Except.noConfusion
        (show (Except.error e : Except String (List (Nat × Row))) = .ok rows from h)
    | ok v =>
      rw [hfx] at h
      have h2 : xs.mapM f >>= (fun ys => pure (v :: ys)) = Except.ok rows := h
      cases hxs : xs.mapM f with
      | error e =>
        rw [hxs] at h2
        exact Except.noConfusion
          (show (Except.error e : Except String (List (Nat × Row))) = .ok rows from h2)
      | ok ys =>
        rw [hxs] at h2
        have h3 : (Except.ok (v :: ys) : Except String (List (Nat × Row)))
            = .ok rows := h2
        injection h3 with h4
        rw [← h4]
        simp [ih ys hxs]

theorem fold_bulkStep_stmts (pkName : String) (tf : List String) :
    ∀ (chunks : List (List (Nat × Row))) (acc : List Row × Nat × Nat),
      ((chunks.foldl (bulkStep pkName tf) acc).2).2 = acc.2.2 + chunks.length := by
  intro chunks
  induction chunks with
  | nil => intro acc; simp
  | cons ch chs ih =>
    intro acc
    rw [List.foldl_cons, ih]
    show acc.2.2 + 1 + chs.length = acc.2.2 + (chs.length + 1)
    omega

/-- C7: for chunk size c ≥ 1 the chunks of a batch operation are consecutive
non-empty slices of at most c elements whose concatenation is the input, their
number is the ceiling of N/c, and a successful non-trivial
`bulk_update_entities` run issues exactly that many statements — in particular
3 statements for 5 entities at chunk size 2. -/
theorem C7_chunking {α : Type} (c : Nat) (hc : c ≠ 0) :
    (∀ (xs : List α), (chunksOf c xs).flatten = xs ∧
      (∀ ch ∈ chunksOf c xs, ch ≠ [] ∧ ch.length ≤ c) ∧
      (chunksOf c xs).length = (xs.length + c - 1) / c) ∧
    (∀ (store : List Row) (pkName : String) (entities : List Row)
        (fields : List String) (store2 : List Row) (upd stmts : Nat),
      bulk_update_entities store pkName 1 entities fields c
          = .ok (store2, upd, stmts) →
      entities ≠ [] → targetFieldsBulk fields pkName ≠ [] →
      stmts = (entities.length + c - 1) / c) := by
  constructor
  · intro xs
    exact ⟨flatten_chunksOf c hc xs, mem_chunksOf c hc xs, length_chunksOf c hc xs⟩
  · intro store pkName entities fields store2 upd stmts h hne htf
    have hfe : fields ≠ [] := by
      intro hf
      subst hf
      exact htf rfl
    simp only [bulk_update_entities, if_neg hne, if_neg (show ¬(1 ≠ 1) by simp),
      if_neg hfe, if_neg htf] at h
    cases hm : entities.mapM (extract_row pkName (targetFieldsBulk fields pkName)) with
    | error e =>
      rw [hm] at h
      exact absurd h (by simp)
    | ok rows =>
      rw [hm] at h
      simp only [Except.ok.injEq] at h
      have hs : ((chunksOf c rows).foldl
          (bulkStep pkName (targetFieldsBulk fields pkName)) (store, 0, 0)).2.2
          = stmts := by rw [h]
      rw [← hs, fold_bulkStep_stmts]
      rw [length_chunksOf c hc rows, mapM_ok_length _ entities rows hm]
      simp

theorem C7_witness :
    (chunksOf 2 ([1, 2, 3, 4, 5] : List Nat)).flatten = [1, 2, 3, 4, 5] ∧
    (3 : Nat) = (exEnts5.length + 2 - 1) / 2 :=
  ⟨((C7_chunking (α := Nat) 2 (by decide)).1 [1, 2, 3, 4, 5]).1,
   (C7_chunking (α := Nat) 2 (by decide)).2 [] "id" exEnts5 ["a"] [] 0 3 rfl
     (by decide) (by decide)⟩

/-- C6: the dedupe pass of `get_many_by_ids` removes duplicates keeping the
first occurrence of each value in its original relative order, and the keys
queried across all chunks are exactly the deduplicated ids, whose count equals
the number of distinct values of the input. -/
theorem C6_dedupe_first_occurrence (ids : List Nat) (c : Nat) (hc : c ≠ 0) :
    (∀ x, x ∈ dedupeList ids ↔ x ∈ ids) ∧
    (dedupeList ids).Pairwise (fun a b => ids.indexOf a < ids.indexOf b) ∧
    (dedupeList ids).Nodup ∧
    (chunksOf c (dedupeList ids)).flatten = dedupeList ids ∧
    (dedupeList ids).length = ids.toFinset.card :=
  ⟨fun x => mem_dedupeList ids x, pairwise_indexOf_dedupeList ids,
    nodup_dedupeList ids, flatten_chunksOf c hc _, length_dedupeList_toFinset ids⟩

theorem C6_witness :
    (dedupeList [5, 2, 2, 9]).Nodup ∧
    (chunksOf 1000 (dedupeList [5, 2, 2, 9])).flatten = dedupeList [5, 2, 2, 9] ∧
    (dedupeList [5, 2, 2, 9]).length = ([5, 2, 2, 9] : List Nat).toFinset.card :=
  ⟨(C6_dedupe_first_occurrence [5, 2, 2, 9] 1000 (by decide)).2.2.1,
   (C6_dedupe_first_occurrence [5, 2, 2, 9] 1000 (by decide)).2.2.2.1,
   (C6_dedupe_first_occurrence [5, 2, 2, 9] 1000 (by decide)).2.2.2.2⟩

/-- C9: on the empty id sequence `get_many_by_ids` returns the empty list
immediately, before the primary-key inspection and before any query; in
particular a composite-key entity type (`numPkCols ≠ 1`) raises no
unsupported-composite-key error on empty input. -/
theorem C9_empty_ids_short_circuit (store : List Row) (pkName : String)
    (numPkCols : Nat) (keepOrder : Bool) (chunkSize : Nat) (dedupe : Bool)
    (dialectMysql : Bool) :
    get_many_by_ids store pkName numPkCols [] keepOrder chunkSize dedupe
      dialectMysql = .ok [] := rfl

/-- C8: `delete` with a single-column key removes exactly the rows carrying the
key and returns true iff a row was removed; a miss returns false with the
store unchanged and no error, and a composite-key entity type fails before any
statement. -/
theorem C8_delete (store : List Row) (pkName : String) (pk : Nat) :
    (∀ (store2 : List Row) (b : Bool),
      delete store pkName 1 pk = .ok (store2, b) →
      ((b = true ↔ ∃ r ∈ store, r.get pkName = some pk) ∧
       (∀ r, r ∈ store2 ↔ r ∈ store ∧ ¬ r.get pkName = some pk) ∧
       ((∀ r ∈ store, ¬ r.get pkName = some pk) → store2 = store ∧ b = false))) ∧
    (∀ n, n ≠ 1 → delete store pkName n pk = .error compositeKeyMsgDelete) := by
  constructor
  · intro store2 b h
    simp only [delete, if_neg (show ¬(1 ≠ 1) by simp), Except.ok.injEq,
      Prod.mk.injEq] at h
    rcases h with ⟨hst, hb⟩
    refine ⟨?_, ?_, ?_⟩
    · rw [← hb]
      simp [List.countP_pos_iff]
    · intro r
      rw [← hst]
      simp [List.mem_filter]
    · intro hmiss
      constructor
      · rw [← hst]
        apply List.filter_eq_self.mpr
        intro r hr
        simpa using hmiss r hr
      · rw [← hb]
        apply decide_eq_false
        intro hpos
        rcases List.countP_pos_iff.mp hpos with ⟨r, hr, hp⟩
        exact hmiss r hr (by simpa using hp)
  · intro n hn
    simp [delete, hn]

theorem C8_witness :
    delete exStore1 "id" 1 100 = Except.ok (exStore1, false) ∧
    delete exStore1 "id" 2 5 = Except.error compositeKeyMsgDelete := by
  constructor
  · have h := ((C8_delete exStore1 "id" 100).1
      (exStore1.filter (fun r => decide (¬ r.get "id" = some 100))) false rfl).2.2
      (by decide)
    calc delete exStore1 "id" 1 100
        = Except.ok (exStore1.filter
            (fun r => decide (¬ r.get "id" = some 100)), false) := rfl
      _ = Except.ok (exStore1, false) := by rw [h.1]
  · exact (C8_delete exStore1 "id" 5).2 2 (by decide)

theorem mem_targetFieldsUpd (allCols : List String) (fields : Option (List String))
    (pkNames : List String) (col : String) :
    col ∈ targetFieldsUpd allCols fields pkNames ↔
      col ∈ fields.getD allCols ∧ col ∉ pkNames := by
  simp [targetFieldsUpd, List.mem_filter, mem_dedupeList]

theorem updateFirst_spec (p : Row → Bool) (f : Row → Row) :
    ∀ (l l2 : List Row) (r2 : Row),
      updateFirst p f l = some (l2, r2) →
      ∃ i, ∃ hi : i < l.length,
        p (l.get ⟨i, hi⟩) = true ∧ r2 = f (l.get ⟨i, hi⟩) ∧ l2 = l.set i r2 := by
  intro l
  induction l with
  | nil =>
    intro l2 r2 h
    simp [updateFirst] at h
  | cons r rs ih =>
    intro l2 r2 h
    rw [updateFirst] at h
    by_cases hp : p r
    · rw [if_pos hp] at h
      simp only [Option.some.injEq, Prod.mk.injEq] at h
      rcases h with ⟨h1, h2⟩
      refine ⟨0, by simp, ?_, ?_, ?_⟩
      · simpa using hp
      · simpa using h2.symm
      · rw [← h1, ← h2]
        rfl
    · rw [if_neg hp] at h
      cases hrec : updateFirst p f rs with
      | none => rw [hrec] at h; exact absurd h (by simp)
      | some pr =>
        rcases pr with ⟨rs2, rr⟩
        rw [hrec] at h
        simp only [Option.some.injEq, Prod.mk.injEq] at h
        rcases h with ⟨h1, h2⟩
        rcases ih rs2 rr hrec with ⟨i, hi, hpi, hri, hsi⟩
        refine ⟨i + 1, by simpa using Nat.succ_lt_succ hi, ?_, ?_, ?_⟩
        · simpa using hpi
        · rw [← h2]; simpa using hri
        · rw [← h1, hsi, ← h2]
          rfl

/-- C3: a successful `update_entity` replaces exactly one stored row — the one
matched by the patch entity's complete primary key — and on that row copies
exactly the target columns from the patch (all declared columns when `fields`
is omitted, else exactly `fields`, with primary-key columns excluded either
way); every column outside the target set keeps its pre-call stored value no
matter what the patch holds for it. -/
theorem C3_update_entity_frame (store : List Row) (allCols : List String)
    (pkNames : List String) (entity : Row) (fields : Option (List String))
    (store2 : List Row) (r2 : Row)
    (h : update_entity store allCols pkNames entity fields = .ok (store2, r2)) :
    ∃ i, ∃ hi : i < store.length,
      store2 = store.set i r2 ∧
      (∀ col, col ∈ fields.getD allCols → col ∉ pkNames →
        r2.get col = entity.get col) ∧
      (∀ col, col ∉ fields.getD allCols ∨ col ∈ pkNames →
        r2.get col = (store.get ⟨i, hi⟩).get col) := by
  rw [update_entity] at h
  cases hpk : pkNames.mapM (fun c => entity.get c) with
  | none => rw [hpk] at h; exact absurd h (by simp)
  | some pkValues =>
    rw [hpk] at h
    dsimp only at h
    cases hup : updateFirst (pkMatches pkNames pkValues)
        (applyFields (targetFieldsUpd allCols fields pkNames) entity) store with
    | none =>
      rw [hup] at h
      exact absurd h (by simp)
    | some pr =>
      rcases pr with ⟨st2, cur⟩
      rw [hup] at h
      dsimp only at h
      simp only [Except.ok.injEq, Prod.mk.injEq] at h
      rcases h with ⟨h1, h2⟩
      rcases updateFirst_spec _ _ store st2 cur hup with ⟨i, hi, hpi, hri, hsi⟩
      refine ⟨i, hi, ?_, ?_, ?_⟩
      · rw [← h1, ← h2, hsi]
      · intro col hcol hpkcol
        rw [← h2, hri]
        show (applyFields (targetFieldsUpd allCols fields pkNames) entity _).get col = _
        rw [applyFields]
        exact foldl_set_get_mem entity.get _ _ col
          ((mem_targetFieldsUpd allCols fields pkNames col).mpr ⟨hcol, hpkcol⟩)
      · intro col hcol
        rw [← h2, hri]
        show (applyFields (targetFieldsUpd allCols fields pkNames) entity _).get col = _
        rw [applyFields]
        apply foldl_set_get_not_mem
        intro hmem
        rcases (mem_targetFieldsUpd allCols fields pkNames col).mp hmem with ⟨hc1, hc2⟩
        rcases hcol with h3 | h3
        · exact h3 hc1
        · exact hc2 h3

theorem C3_witness :
    update_entity [exStored3] ["id", "title", "body"] ["id"] exPatchRow
        (some ["title"])
      = Except.ok ([⟨("title", some 77) :: exStored3.attrs⟩],
          ⟨("title", some 77) :: exStored3.attrs⟩) ∧
    (⟨("title", some 77) :: exStored3.attrs⟩ : Row).get "title"
        = exPatchRow.get "title" ∧
    (⟨("title", some 77) :: exStored3.attrs⟩ : Row).get "body"
        = exStored3.get "body" := by
  refine ⟨rfl, ?_, ?_⟩
  · rcases C3_update_entity_frame [exStored3] ["id", "title", "body"] ["id"]
      exPatchRow (some ["title"]) [⟨("title", some 77) :: exStored3.attrs⟩]
      ⟨("title", some 77) :: exStored3.attrs⟩ rfl with ⟨i, hi, -, hcopy, -⟩
    exact hcopy "title" (by decide) (by decide)
  · rcases C3_update_entity_frame [exStored3] ["id", "title", "body"] ["id"]
      exPatchRow (some ["title"]) [⟨("title", some 77) :: exStored3.attrs⟩]
      ⟨("title", some 77) :: exStored3.attrs⟩ rfl with ⟨i, hi, -, -, hkeep⟩
    have hzero : i = 0 := by
      simp only [List.length_cons, List.length_nil] at hi
      omega
    subst hzero
    exact hkeep "body" (Or.inl (by decide))

theorem assignIdents_isSome :
    ∀ (models : List OrmEntity) (n : Nat), ∀ e ∈ assignIdents n models,
      e.ident.isSome = true := by
  intro models
  induction models with
  | nil => intro n e he; simp [assignIdents] at he
  | cons m ms ih =>
    intro n e he
    rcases List.mem_cons.mp he with rfl | hmem
    · rfl
    · exact ih (n + 1) e hmem

/-- C5: `create` and `bulk_create` signal the not-transient error exactly when
some received entity is not New; for `bulk_create` the check covers every
entity before any registration, so a single non-New entity anywhere yields the
error with no session produced (all-or-nothing precheck), while an all-New
list is registered in one batch, each entity getting an assigned identity, and
the count created is returned. -/
theorem C5_not_transient (s : Sess) (obj : OrmEntity) (models : List OrmEntity) :
    ((∃ e, create s obj = .error e) ↔ obj.state ≠ EntityState.New) ∧
    ((∃ e, bulk_create s models = .error e) ↔
      ∃ m ∈ models, m.state ≠ EntityState.New) ∧
    ((∀ m ∈ models, m.state = EntityState.New) → models ≠ [] →
      bulk_create s models =
        .ok ({ registered := s.registered ++ assignIdents s.nextId models,
               nextId := s.nextId + models.length }, models.length)) ∧
    (∀ n, ∀ e ∈ assignIdents n models, e.ident.isSome = true) := by
  refine ⟨?_, ?_, ?_, ?_⟩
  · constructor
    · rintro ⟨e, he⟩
      by_cases hst : obj.state = EntityState.New
      · rw [create, if_neg (by simp [hst])] at he
        exact absurd he (by simp)
      · exact hst
    · intro hst
      exact ⟨notTransientCreateMsg, by rw [create, if_pos hst]⟩
  · constructor
    · rintro ⟨e, he⟩
      by_cases hnil : models = []
      · rw [bulk_create, if_pos hnil] at he
        exact absurd he (by simp)
      · by_cases hall : models.all (fun m => decide (m.state = EntityState.New))
        · rw [bulk_create, if_neg hnil, if_pos hall] at he
          exact absurd he (by simp)
        · have h2 : ¬ ∀ m ∈ models, decide (m.state = EntityState.New) = true :=
            fun hf => hall (List.all_eq_true.mpr hf)
          push_neg at h2
          rcases h2 with ⟨m, hm, hms⟩
          exact ⟨m, hm, by simpa using hms⟩
    · rintro ⟨m, hm, hms⟩
      have hnil : models ≠ [] := by
        rintro rfl
        simp at hm
      have hall : ¬ models.all (fun m => decide (m.state = EntityState.New)) := by
        intro hall
        exact hms (by simpa using List.all_eq_true.mp hall m hm)
      exact ⟨notTransientBulkMsg, by rw [bulk_create, if_neg hnil, if_neg hall]⟩
  · intro hall hnil
    rw [bulk_create, if_neg hnil,
      if_pos (List.all_eq_true.mpr (fun m hm => by simpa using hall m hm))]
  · exact fun n => assignIdents_isSome models n

theorem C5_witness :
    bulk_create ⟨[], 0⟩ [⟨EntityState.New, none⟩, ⟨EntityState.New, none⟩]
      = Except.ok (⟨[⟨EntityState.Tracked, some 0⟩,
          ⟨EntityState.Tracked, some 1⟩], 2⟩, 2) :=
  ((C5_not_transient ⟨[], 0⟩ ⟨EntityState.New, none⟩
    [⟨EntityState.New, none⟩, ⟨EntityState.New, none⟩]).2.2.1
    (by decide) (by decide)).trans rfl

end Repo
